import Mathlib

/-!
Verification of the weathermakers maintenance scripts.

Strings are embedded as lists of characters (`Str`).  Filesystem paths are
embedded as lists of path segments; `Path.resolve` / `Path.relative_to`
become pure functions on segment lists (no symlinks are modelled, and all
separators are written `/`).  Percent-decoding is modelled byte-per-byte
(a multi-byte UTF-8 escape sequence decodes to one character per byte);
the downstream sanitisation steps are insensitive to this choice.
-/

abbrev Str := List Char

def chars (s : String) : Str := s.data

/-- Substring test, modelling the Python `needle in hay` operator. -/
def containsSub (needle : Str) : Str → Bool
  | [] => needle.isEmpty
  | c :: rest => needle.isPrefixOf (c :: rest) || containsSub needle rest

/-- Non-overlapping substring count, modelling Python `hay.count(needle)`
for a nonempty needle.  After a match the scan skips the remainder of the
matched occurrence, tracked by the first `Nat` argument. -/
def countSubAux (needle : Str) : Nat → Str → Nat
  | _, [] => 0
  | skip + 1, _ :: rest => countSubAux needle skip rest
  | 0, c :: rest =>
    if needle.isPrefixOf (c :: rest) then 1 + countSubAux needle (needle.length - 1) rest
    else countSubAux needle 0 rest

def countSub (needle : Str) (s : Str) : Nat := countSubAux needle 0 s

/-- Suffix test, modelling Python `s.endswith(suf)`. -/
def strEnds (suf s : Str) : Bool := suf.reverse.isPrefixOf s.reverse

/-- Split on a separator character, keeping empty pieces
(Python `s.split(c)`). -/
def splitChar (c : Char) : Str → List Str
  | [] => [[]]
  | x :: rest =>
    match splitChar c rest with
    | [] => if x = c then [[], []] else [[x]]
    | piece :: pieces => if x = c then [] :: piece :: pieces else (x :: piece) :: pieces

/-- Join segments with `/` separators (Python `'/'.join` / `str` of a path). -/
def joinSlash : List Str → Str
  | [] => []
  | [s] => s
  | s :: t :: rest => s ++ '/' :: joinSlash (t :: rest)

/-- Index of the last occurrence of a character, if any
(Python `s.rfind(c)` up to the `-1` encoding). -/
def rlast (c : Char) : Str → Option Nat
  | [] => none
  | x :: t =>
    match rlast c t with
    | some j => some (j + 1)
    | none => if x = c then some 0 else none

/-- Encode an optional index the way Python `rfind` does, `-1` for absent. -/
def optIdx : Option Nat → Int
  | none => -1
  | some j => (j : Int)

/-! ## Link Extractor (check_broken_links.py lines 13-36)

The source scans the document with `re.finditer` for the patterns
`href=["\']([^"\']+)["\']` and `src=["\']([^"\']+)["\']`, case-insensitive,
collecting all `href` values and then all `src` values.  The scanner below
operationalises that regex; match start positions are carried along (the
source uses only the captured group, the second component). -/

def lowerAZ (c : Char) : Char :=
  if 'A' ≤ c ∧ c ≤ 'Z' then Char.ofNat (c.toNat + 32) else c

def quoteChar (c : Char) : Prop := c = '"' ∨ c = Char.ofNat 39

instance : DecidablePred quoteChar := fun c => by unfold quoteChar; infer_instance

/-- Try to match `attr["\']([^"\']+)["\']` at the head of `s` (attribute
name case-insensitive); on success return the captured value and the
number of characters consumed. -/
def tryAttrMatch (attr : Str) (s : Str) : Option (Str × Nat) :=
  if (s.take attr.length).map lowerAZ = attr then
    match s.drop attr.length with
    | [] => none
    | q :: rest =>
      if quoteChar q then
        let val := rest.takeWhile (fun c => ¬ quoteChar c)
        if val = [] then none
        else
          match rest.drop val.length with
          | [] => none
          | q2 :: _ =>
            if quoteChar q2 then some (val, attr.length + 1 + val.length + 1) else none
      else none
  else none

/-- Scan the whole text left to right for non-overlapping matches of the
attribute pattern (the `re.finditer` loop), recording match start
positions.  After a match the scan resumes past the matched text, tracked
by the `skip` counter. -/
def scanAttrPos (attr : Str) : Nat → Nat → Str → List (Nat × Str)
  | _, _, [] => []
  | skip + 1, pos, _ :: rest => scanAttrPos attr skip (pos + 1) rest
  | 0, pos, c :: rest =>
    match tryAttrMatch attr (c :: rest) with
    | some (val, consumed) =>
      (pos, val) :: scanAttrPos attr (consumed - 1) (pos + 1) rest
    | none => scanAttrPos attr 0 (pos + 1) rest

/-- All `href` attribute values followed by all `src` attribute values
(check_broken_links.py lines 13-36). -/
def extract_links_from_html (content : Str) : List Str :=
  (scanAttrPos (chars "href=") 0 0 content).map (·.2) ++
    (scanAttrPos (chars "src=") 0 0 content).map (·.2)

/-! ## Internal-Link Classifier (check_broken_links.py lines 39-59) -/

/-- The netloc component of an absolute http(s) URL: everything after the
scheme marker up to the first of `/`, `?`, `#` (urllib.parse.urlparse). -/
def netlocOf (url : Str) : Str :=
  (if (chars "http://").isPrefixOf url then url.drop 7 else url.drop 8).takeWhile
    (fun c => ¬ (c = '/' ∨ c = '?' ∨ c = '#'))

def is_internal_link (url : Str)
    (base_domain : Str := chars "weathermakerscomfort.com") : Bool :=
  if (chars "#").isPrefixOf url then false
  else if (chars "mailto:").isPrefixOf url then false
  else if (chars "tel:").isPrefixOf url then false
  else if (chars "javascript:").isPrefixOf url then false
  else if (chars "http://").isPrefixOf url || (chars "https://").isPrefixOf url then
    containsSub base_domain (netlocOf url)
  else if (chars "/").isPrefixOf url || !((chars "http").isPrefixOf url) then true
  else false

/-! ## Path Resolver (check_broken_links.py lines 62-106) -/

/-- urllib's `_splitparams`: strip a `;params` suffix from the last
path segment. -/
def splitParams (p : Str) : Str :=
  if p.contains '/' then
    let lastSeg := (p.reverse.takeWhile (· ≠ '/')).reverse
    p.take (p.length - lastSeg.length) ++ lastSeg.takeWhile (· ≠ ';')
  else p.takeWhile (· ≠ ';')

/-- The `.path` component of an absolute http(s) URL
(urllib.parse.urlparse). -/
def urlparsePath (url : Str) : Str :=
  let rest := if (chars "http://").isPrefixOf url then url.drop 7 else url.drop 8
  let afterNetloc := rest.dropWhile (fun c => ¬ (c = '/' ∨ c = '?' ∨ c = '#'))
  splitParams (afterNetloc.takeWhile (fun c => ¬ (c = '?' ∨ c = '#')))

/-- Lines 64-70: take the path component of absolute URLs, the raw link
otherwise. -/
def extractPath (url : Str) : Str :=
  if (chars "http://").isPrefixOf url || (chars "https://").isPrefixOf url then
    urlparsePath url
  else url

/-- Lines 64-76: path component with query string and fragment removed. -/
def preStripped (url : Str) : Str :=
  let path := extractPath url
  let path := if path.contains '?' then path.takeWhile (· ≠ '?') else path
  if path.contains '#' then path.takeWhile (· ≠ '#') else path

/-- pathlib parsing of a relative path string into parts: split on `/`,
dropping empty pieces and `.` pieces. -/
def parseParts (p : Str) : List Str :=
  (splitChar '/' p).filter (fun seg => decide (seg ≠ [] ∧ seg ≠ chars "."))

/-- `Path.resolve()` on a segment list: `..` pops a segment (a no-op at the
root), `.` and empty segments vanish, anything else is pushed. -/
def resolveSegs (l : List Str) : List Str :=
  l.foldl
    (fun acc s =>
      if s = chars ".." then acc.dropLast
      else if s = chars "." ∨ s = [] then acc
      else acc ++ [s])
    []

/-- `Path(path).name` for a path string: its last parsed part, `""` if none. -/
def pathName (p : Str) : Str := ((parseParts p).getLast?).getD []

/-- Lines 79-82: `(current_dir / path).resolve()` as a segment list.
`currentRel` is the containing file's path below the site root, `rootSegs`
the site root's own segments. -/
def resolvedAbs (path : Str) (currentRel rootSegs : List Str) : List Str :=
  resolveSegs ((rootSegs ++ currentRel).dropLast ++ parseParts path)

/-- The segments of the resolved path relative to the site root. -/
def relSegs (path : Str) (currentRel rootSegs : List Str) : List Str :=
  (resolvedAbs path currentRel rootSegs).drop rootSegs.length

/-- Lines 79-83: resolve a relative link against the containing file's
directory and re-express it relative to the site root; fails (the caught
`ValueError`) when the resolved path escapes the root, i.e. when the root's
segments are not a prefix of the resolved path. -/
def relativize (path : Str) (currentRel rootSegs : List Str) : Option Str :=
  if rootSegs.isPrefixOf (resolvedAbs path currentRel rootSegs) then
    some ('/' :: (if relSegs path currentRel rootSegs = [] then chars "."
      else joinSlash (relSegs path currentRel rootSegs)))
  else none

/-- Lines 85-89: strip a leading `/blog/`, else a single leading `/`. -/
def stripBlogSlash (path0 : Str) : Str :=
  if (chars "/blog/").isPrefixOf path0 then path0.drop 6
  else if path0.head? = some '/' then path0.drop 1
  else path0

/-- Lines 100-101: append `/index.html` when the final component has no
extension. -/
def indexSuffix (path : Str) : Str :=
  if '.' ∈ pathName path then path else path ++ chars "/index.html"

/-- Lines 85-103: prefix stripping followed by the `index.html` directory
conventions (lines 91-101). -/
def finishPath (path0 : Str) : Str :=
  if stripBlogSlash path0 = [] ∨ stripBlogSlash path0 = ['/'] then chars "index.html"
  else if (stripBlogSlash path0).getLast? = some '/' then
    indexSuffix (stripBlogSlash path0 ++ chars "index.html")
  else indexSuffix (stripBlogSlash path0)

/-- check_broken_links.py lines 62-106. -/
def normalize_path (url : Str) (currentRel rootSegs : List Str) : Option Str :=
  if (preStripped url).head? = some '/' then some (finishPath (preStripped url))
  else
    match relativize (preStripped url) currentRel rootSegs with
    | some p => some (finishPath p)
    | none => none

/-- One iteration of the checking loop (check_broken_links.py lines
144-158): first component lists the normalized paths handed to
`check_file_exists`, second the broken-link record
`(original_link, normalized_path)` produced, if any. -/
def check_link_step (fsExists : Str → Bool) (url : Str)
    (currentRel rootSegs : List Str) : List Str × Option (Str × Str) :=
  match normalize_path url currentRel rootSegs with
  | none => ([], none)
  | some p => ([p], if fsExists p then none else some (url, p))

/-! ## Broken-Link Categorizer (analyze_broken_links.py lines 110-125) -/

def encTest (link : Str) : Bool :=
  containsSub (chars "%3F") link || containsSub (chars "%3D") link ||
    containsSub (chars "%3A") link || containsSub (chars "%2F") link

def wpTest (link : Str) : Bool :=
  containsSub (chars "wp-content") link || containsSub (chars "wp-includes") link ||
    containsSub (chars "wp-json") link

def categorize_broken_link (link : Str) : Str :=
  if encTest link then chars "url_encoded"
  else if wpTest link then chars "wordpress_specific"
  else if (chars "../../").isPrefixOf link || 2 < countSub (chars "../") link then
    chars "deep_relative_path"
  else if strEnds (chars ".css") link || strEnds (chars ".js") link then
    chars "static_asset"
  else if containsSub (chars "xmlrpc.php") link || containsSub (chars "rsd") link then
    chars "wordpress_api"
  else if containsSub (chars "feed") link then chars "rss_feed"
  else chars "other"

/-! ## Filename sanitisation (fix_filenames.py lines 13-59) -/

def invalid_chars : List Char := ['<', '>', ':', '"', '|', '?', '*']

/-- Python `s.replace(c, r)` for single characters. -/
def replaceChar (c r : Char) (s : Str) : Str :=
  s.map (fun x => if x = c then r else x)

/-- Python `s.replace('&', '_and_')`. -/
def replaceAmp (s : Str) : Str :=
  (s.map (fun x => if x = '&' then chars "_and_" else [x])).flatten

def hexVal (c : Char) : Option Nat :=
  if '0' ≤ c ∧ c ≤ '9' then some (c.toNat - 48)
  else if 'A' ≤ c ∧ c ≤ 'F' then some (c.toNat - 55)
  else if 'a' ≤ c ∧ c ≤ 'f' then some (c.toNat - 87)
  else none

/-- urllib.parse.unquote, modelled byte-per-byte. -/
def pyUnquote : Str → Str
  | [] => []
  | '%' :: a :: b :: rest =>
    match hexVal a, hexVal b with
    | some x, some y => Char.ofNat (16 * x + y) :: pyUnquote rest
    | _, _ => '%' :: pyUnquote (a :: b :: rest)
  | c :: rest => c :: pyUnquote rest

/-- `re.sub(r'_+', '_', s)`. -/
def collapseUnderscores : Str → Str
  | [] => []
  | [c] => [c]
  | a :: b :: rest =>
    if a = '_' ∧ b = '_' then collapseUnderscores (b :: rest)
    else a :: collapseUnderscores (b :: rest)

def isDotSpace (c : Char) : Bool := c = '.' || c = ' '

/-- Python `s.strip('. ')`. -/
def stripDotSpace (s : Str) : Str :=
  ((s.dropWhile isDotSpace).reverse.dropWhile isDotSpace).reverse

/-- `os.path.splitext` (ntpath variant: separators `\\` and `/`): split off
the extension at the last dot of the final component, unless that component
consists only of leading dots up to it. -/
def splitext (p : Str) : Str × Str :=
  let sepIndex : Int := max (optIdx (rlast '\\' p)) (optIdx (rlast '/' p))
  let dotIndex : Int := optIdx (rlast '.' p)
  if sepIndex < dotIndex then
    let dn := dotIndex.toNat
    if ((p.take dn).drop (sepIndex + 1).toNat).any (· ≠ '.') then
      (p.take dn, p.drop dn)
    else (p, [])
  else (p, [])

/-- Python slice `l[:i]` where `i` may be negative. -/
def pySliceTo (l : Str) (i : Int) : Str :=
  if 0 ≤ i then l.take i.toNat else l.take (l.length - i.natAbs)

/-- Lines 26-29: replace each invalid Windows character with `_`. -/
def replInvalid (s : Str) : Str :=
  invalid_chars.foldl (fun acc c => replaceChar c '_' acc) s

/-- Lines 31-33: `if '=' in sanitized: sanitized.replace('=', '_')`. -/
def replEq (s : Str) : Str :=
  if s.contains '=' then replaceChar '=' '_' s else s

/-- Lines 35-37: `if '&' in sanitized: sanitized.replace('&', '_and_')`. -/
def replAmpStep (s : Str) : Str :=
  if s.contains '&' then replaceAmp s else s

/-- Lines 39-48: URL-decode when the name looks percent-encoded, then
re-replace every invalid character, `=` and `&` with `_`. -/
def decodeStep (s : Str) : Str :=
  if containsSub (chars "%2F") s || containsSub (chars "%3A") s then
    (invalid_chars ++ ['=', '&']).foldl (fun acc c => replaceChar c '_' acc) (pyUnquote s)
  else s

/-- fix_filenames.py lines 23-52: everything before the length cap. -/
def sanitize_pre (filename : Str) : Str :=
  stripDotSpace (collapseUnderscores (decodeStep (replAmpStep (replEq (replInvalid filename)))))

/-- fix_filenames.py lines 13-59: the substitution pipeline followed by the
200-character cap `name[:200-len(ext)] + ext`. -/
def sanitize_filename (filename : Str) : Str :=
  if 200 < (sanitize_pre filename).length then
    pySliceTo (splitext (sanitize_pre filename)).1
        (200 - ((splitext (sanitize_pre filename)).2.length : Int)) ++
      (splitext (sanitize_pre filename)).2
  else sanitize_pre filename

/-! ## Rename mapping (fix_filenames.py lines 88-120) -/

/-- Per-part sanitisation of a `/`-separated path (lines 100-108). -/
def sanitizePath (orig : Str) : Str :=
  joinSlash ((splitChar '/' orig).map sanitize_filename)

/-- Decimal representation, Python `str(n)` for a natural number. -/
def natStr (n : Nat) : Str :=
  if n = 0 then ['0']
  else ((Nat.digits 10 n).map (fun d => Char.ofNat (48 + d))).reverse

/-- The candidate `f"{name}_{counter}{ext}"` built from the base name
(line 115). -/
def conflictCand (base : Str) (k : Nat) : Str :=
  (splitext base).1 ++ '_' :: natStr k ++ (splitext base).2

/-- The `while sanitized_path in mapping.values()` loop (lines 112-116),
fuelled; with fuel `values.length + 1` the fallback is unreachable. -/
def freshLoop (base : Str) (values : List Str) : Nat → Nat → Str
  | k, 0 => conflictCand base k
  | k, fuel + 1 =>
    if conflictCand base k ∈ values then freshLoop base values (k + 1) fuel
    else conflictCand base k

def resolveRename (base : Str) (values : List Str) : Str :=
  if base ∈ values then freshLoop base values 1 (values.length + 1) else base

/-- Python dict assignment `mapping[original] = sanitized` with insertion
order preserved. -/
def insertEntry (m : List (Str × Str)) (key v : Str) : List (Str × Str) :=
  if m.any (fun p => p.1 = key) then
    m.map (fun p => if p.1 = key then (key, v) else p)
  else m ++ [(key, v)]

/-- fix_filenames.py lines 88-120. -/
def create_rename_mapping (files : List Str) : List (Str × Str) :=
  files.foldl
    (fun m orig => insertEntry m orig (resolveRename (sanitizePath orig) (m.map (·.2))))
    []

/-! ## Blog cleanup (cleanup_blog_filenames.py) -/

/-- cleanup_blog_filenames.py lines 42-67 (the `except` branch is
unreachable in the model, so the function is total). -/
def url_to_filepath (url : Str) : Str :=
  let path := extractPath url
  let path :=
    if (chars "/blog/").isPrefixOf path then path.drop 6
    else if path.head? = some '/' then path.drop 1
    else path
  if path = [] ∨ path = ['/'] then chars "index.html"
  else if ¬ strEnds (chars ".html") path ∧ ¬ strEnds (chars "/") path then
    path ++ chars "/index.html"
  else if strEnds (chars "/") path then path ++ chars "index.html"
  else path

/-- `(blog_root / filepath).parent` relative to the blog root, the
directory created by `create_directory_structure` (lines 70-75). -/
def parentRel (t : Str) : Str :=
  match rlast '/' t with
  | some j => t.take j
  | none => []

/-- The scanning loop of cleanup_blog_filenames.py lines 98-133: for each
(filename, extracted canonical URL) pair, skip it when no URL was found or
the target already exists; otherwise create the target's directory
structure and queue the rename.  Returns (directories created, renames
queued).  Directory creation happens inside this loop, before any dry-run
check. -/
def cleanup_scan (files : List (Str × Option Str)) (targetExists : Str → Bool) :
    List Str × List (Str × Str) :=
  files.foldl
    (fun acc fi =>
      match fi.2 with
      | none => acc
      | some u =>
        let t := url_to_filepath u
        if targetExists t then acc
        else (acc.1 ++ [parentRel t], acc.2 ++ [(fi.1, t)]))
    ([], [])

/-- cleanup_blog_filenames.py `main` (lines 78-163): the renames are
performed only when `dryRun` is false, but the directory-creation effects
of the scan happen unconditionally. -/
def cleanup_main (dryRun : Bool) (files : List (Str × Option Str))
    (targetExists : Str → Bool) : List Str × List (Str × Str) :=
  let s := cleanup_scan files targetExists
  (s.1, if dryRun then [] else s.2)

/-! ## Helper lemmas -/

theorem prefixOf_iff : ∀ (p s : Str), p.isPrefixOf s = true ↔ ∃ t, s = p ++ t := by
  intro p
  induction p with
  | nil => intro s; simp [List.isPrefixOf]
  | cons a as ih =>
    intro s
    cases s with
    | nil => simp [List.isPrefixOf]
    | cons b bs =>
      simp only [List.isPrefixOf, Bool.and_eq_true, beq_iff_eq, ih bs, List.cons_append,
        List.cons.injEq]
      constructor
      · rintro ⟨rfl, t, rfl⟩; exact ⟨t, rfl, rfl⟩
      · rintro ⟨t, rfl, rfl⟩; exact ⟨rfl, t, rfl⟩

theorem head?_append_left {l l' : Str} (h : l ≠ []) : (l ++ l').head? = l.head? := by
  cases l with
  | nil => exact absurd rfl h
  | cons a t => rfl

/-! ## Claims C8, C4, C6, C7 and the concrete counterexamples -/

/-- Claim C8: resolving the link `/blog/category/heating/` from any
containing file and any site root yields exactly
`category/heating/index.html`. -/
theorem C8_blog_roundtrip : ∀ (currentRel rootSegs : List Str),
    normalize_path (chars "/blog/category/heating/") currentRel rootSegs =
      some (chars "category/heating/index.html") :=
  fun _ _ => rfl

/-- Claim C4 (amended): resolving `/` yields `index.html` regardless of the
source file's location, but resolving `""` yields the index file of the
directory containing the source file, so it does depend on that location
(here `sub/index.html` from `root/sub/page.html`). -/
theorem C4_amended_root_and_empty :
    (∀ (currentRel rootSegs : List Str),
        normalize_path (chars "/") currentRel rootSegs = some (chars "index.html")) ∧
      normalize_path (chars "") [chars "sub", chars "page.html"] [chars "d", chars "r"] =
        some (chars "sub/index.html") :=
  ⟨fun _ _ => rfl, by decide⟩

/-- Claim C4, counterexample: resolving the empty link from
`root/sub/page.html` does not yield `index.html`. -/
theorem C4_cex_empty_link :
    normalize_path (chars "") [chars "sub", chars "page.html"] [chars "d", chars "r"] ≠
      some (chars "index.html") := by decide

/-- Claim C6: in dry-run mode, `cleanup_blog_filenames.main` still creates
the target directory structure during its scan loop (here `category/heating`)
even though the renames are withheld — the dry run does modify the
filesystem. -/
theorem C6_dry_run_creates_directories :
    cleanup_main true
        [(chars "index.html_p_123.html",
          some (chars "https://www.weathermakerscomfort.com/blog/category/heating/"))]
        (fun _ => false) =
      ([chars "category/heating"], []) := by decide

/-- Claim C1, counterexample: the link `/blog//style.css` resolves
successfully to `/style.css`, which begins with a path separator and
neither ends in `.html` nor equals `index.html`. -/
theorem C1_cex_blog_double_slash :
    normalize_path (chars "/blog//style.css") [] [] = some (chars "/style.css") ∧
      (chars "/style.css").head? = some '/' ∧
      strEnds (chars ".html") (chars "/style.css") = false ∧
      chars "/style.css" ≠ chars "index.html" := by decide

/-- Claim C2, counterexample: `httpx` begins with none of `#`, `mailto:`,
`tel:`, `javascript:`, `http://`, `https://`, yet the classifier marks this
bare relative path as not internal (it begins with `http`). -/
theorem C2_cex_bare_path_starting_http :
    (chars "#").isPrefixOf (chars "httpx") = false ∧
      (chars "mailto:").isPrefixOf (chars "httpx") = false ∧
      (chars "tel:").isPrefixOf (chars "httpx") = false ∧
      (chars "javascript:").isPrefixOf (chars "httpx") = false ∧
      (chars "http://").isPrefixOf (chars "httpx") = false ∧
      (chars "https://").isPrefixOf (chars "httpx") = false ∧
      is_internal_link (chars "httpx") = false := by decide

/-- Claim C5, counterexample: `../../img/x.png` contains only two `../`
segments (and triggers neither the percent-encoding nor the WordPress
tests), yet it is categorized `deep_relative_path` because of the
`startswith('../../')` disjunct. -/
theorem C5_cex_two_parent_segments :
    categorize_broken_link (chars "../../img/x.png") = chars "deep_relative_path" ∧
      countSub (chars "../") (chars "../../img/x.png") = 2 ∧
      encTest (chars "../../img/x.png") = false ∧
      wpTest (chars "../../img/x.png") = false := by decide

/-- Claim C7: when path resolution fails the checking loop performs no
existence check and records nothing; a broken-link record is produced only
when resolution succeeded and the existence check returned false. -/
theorem C7_failed_resolution_skipped (fsExists : Str → Bool) (url : Str)
    (currentRel rootSegs : List Str) :
    (normalize_path url currentRel rootSegs = none →
        check_link_step fsExists url currentRel rootSegs = ([], none)) ∧
    (∀ r, (check_link_step fsExists url currentRel rootSegs).2 = some r →
        ∃ p, normalize_path url currentRel rootSegs = some p ∧ fsExists p = false ∧
          r = (url, p)) := by
  constructor
  · intro h
    unfold check_link_step
    rw [h]
  · intro r h
    unfold check_link_step at h
    cases hn : normalize_path url currentRel rootSegs with
    | none => rw [hn] at h; simp at h
    | some p =>
      rw [hn] at h
      by_cases hf : fsExists p = true
      · simp [hf] at h
      · rw [Bool.not_eq_true] at hf
        simp only [hf, Bool.false_eq_true, if_false, Option.some.injEq] at h
        exact ⟨p, rfl, hf, h.symm⟩

/-- Witness for C7: the relative link `../../x` from `root/a.html` escapes
the site root, resolution fails, and the link is skipped. -/
theorem C7_witness :
    check_link_step (fun _ => false) (chars "../../x") [chars "a.html"]
        [chars "d", chars "r"] = ([], none) :=
  (C7_failed_resolution_skipped (fun _ => false) (chars "../../x") [chars "a.html"]
      [chars "d", chars "r"]).1 (by decide)

/-! ## Claim C3: extraction order -/

theorem scanAttrPos_pos_mono (attr : Str) :
    ∀ (s : Str) (skip pos : Nat),
      List.Chain' (fun a b => a.1 < b.1) (scanAttrPos attr skip pos s) ∧
        ∀ x ∈ scanAttrPos attr skip pos s, pos ≤ x.1 := by
  intro s
  induction s with
  | nil => intro skip pos; simp [scanAttrPos]
  | cons c rest ih =>
    intro skip pos
    match skip with
    | skip' + 1 =>
      simp only [scanAttrPos]
      refine ⟨(ih skip' (pos + 1)).1, ?_⟩
      intro x hx
      have := (ih skip' (pos + 1)).2 x hx
      omega
    | 0 =>
      simp only [scanAttrPos]
      cases h : tryAttrMatch attr (c :: rest) with
      | none =>
        refine ⟨(ih 0 (pos + 1)).1, ?_⟩
        intro x hx
        have := (ih 0 (pos + 1)).2 x hx
        omega
      | some vc =>
        obtain ⟨val, consumed⟩ := vc
        refine ⟨?_, ?_⟩
        · rw [List.chain'_cons']
          refine ⟨?_, (ih (consumed - 1) (pos + 1)).1⟩
          intro y hy
          have hmem : y ∈ scanAttrPos attr (consumed - 1) (pos + 1) rest :=
            List.mem_of_mem_head? hy
          have := (ih (consumed - 1) (pos + 1)).2 y hmem
          simp only []
          omega
        · intro x hx
          rcases List.mem_cons.mp hx with hx | hx
          · subst hx; exact Nat.le_refl _
          · have := (ih (consumed - 1) (pos + 1)).2 x hx
            omega

/-- Claim C3 (amended): the Link Extractor returns all `href` attribute
values in first-seen document order, followed by all `src` attribute values
in first-seen document order (each scan emits matches at strictly
increasing positions); the two kinds are not interleaved by document
position. -/
theorem C3_amended_extraction_order (content : Str) :
    extract_links_from_html content =
        (scanAttrPos (chars "href=") 0 0 content).map (·.2) ++
          (scanAttrPos (chars "src=") 0 0 content).map (·.2) ∧
      List.Chain' (fun a b => a.1 < b.1) (scanAttrPos (chars "href=") 0 0 content) ∧
      List.Chain' (fun a b => a.1 < b.1) (scanAttrPos (chars "src=") 0 0 content) :=
  ⟨rfl, (scanAttrPos_pos_mono (chars "href=") content 0 0).1,
    (scanAttrPos_pos_mono (chars "src=") content 0 0).1⟩

/-- Claim C3, counterexample: in `src='a.png' href='b.html'` the `src`
value occurs at position 0, before the `href` value at position 12, yet the
extractor returns the `href` value first. -/
theorem C3_cex_src_before_href :
    extract_links_from_html (chars "src='a.png' href='b.html'") =
        [chars "b.html", chars "a.png"] ∧
      scanAttrPos (chars "src=") 0 0 (chars "src='a.png' href='b.html'") =
        [(0, chars "a.png")] ∧
      scanAttrPos (chars "href=") 0 0 (chars "src='a.png' href='b.html'") =
        [(12, chars "b.html")] := by decide

/-! ## Claim C2: internal-link classification -/

/-- Claim C2 (amended): every link that begins with none of `#`, `mailto:`,
`tel:`, `javascript:` and that either begins with `/` or does not begin
with `http` is classified internal.  (A bare relative path beginning with
`http` — e.g. `httpx` — is classified external.) -/
theorem C2_amended_internal (url : Str)
    (h1 : (chars "#").isPrefixOf url = false)
    (h2 : (chars "mailto:").isPrefixOf url = false)
    (h3 : (chars "tel:").isPrefixOf url = false)
    (h4 : (chars "javascript:").isPrefixOf url = false)
    (h5 : (chars "/").isPrefixOf url = true ∨ (chars "http").isPrefixOf url = false) :
    is_internal_link url = true := by
  have hhttp : (chars "http://").isPrefixOf url = false := by
    cases h5 with
    | inl h =>
      by_contra hc
      rw [Bool.not_eq_false] at hc
      obtain ⟨t, ht⟩ := (prefixOf_iff _ _).mp hc
      obtain ⟨t2, ht2⟩ := (prefixOf_iff _ _).mp h
      rw [ht] at ht2
      simp [chars] at ht2
    | inr h =>
      by_contra hc
      rw [Bool.not_eq_false] at hc
      obtain ⟨t, rfl⟩ := (prefixOf_iff _ _).mp hc
      have hp : (chars "http").isPrefixOf (chars "http://" ++ t) = true := by
        rw [prefixOf_iff]
        exact ⟨chars "://" ++ t, by simp [chars]⟩
      exact Bool.false_ne_true (h ▸ hp)
  have hhttps : (chars "https://").isPrefixOf url = false := by
    cases h5 with
    | inl h =>
      by_contra hc
      rw [Bool.not_eq_false] at hc
      obtain ⟨t, ht⟩ := (prefixOf_iff _ _).mp hc
      obtain ⟨t2, ht2⟩ := (prefixOf_iff _ _).mp h
      rw [ht] at ht2
      simp [chars] at ht2
    | inr h =>
      by_contra hc
      rw [Bool.not_eq_false] at hc
      obtain ⟨t, rfl⟩ := (prefixOf_iff _ _).mp hc
      have hp : (chars "http").isPrefixOf (chars "https://" ++ t) = true := by
        rw [prefixOf_iff]
        exact ⟨chars "s://" ++ t, by simp [chars]⟩
      exact Bool.false_ne_true (h ▸ hp)
  cases h5 with
  | inl h => simp [is_internal_link, h1, h2, h3, h4, hhttp, hhttps, h]
  | inr h => simp [is_internal_link, h1, h2, h3, h4, hhttp, hhttps, h]

/-- Witness for C2 (amended): the bare relative link `about.html` is
classified internal. -/
theorem C2_witness : is_internal_link (chars "about.html") = true :=
  C2_amended_internal (chars "about.html") (by decide) (by decide) (by decide) (by decide)
    (Or.inr (by decide))

/-! ## Claim C5: broken-link categorisation -/

/-- Claim C5 (amended): the categorizer is total — every link receives
exactly one of the seven categories — and, when the percent-encoding and
WordPress tests do not fire, a link is categorized `deep_relative_path`
exactly when it starts with `../../` or contains more than two `../`
occurrences (so two leading `../` segments already suffice). -/
theorem C5_amended_categorizer (link : Str) :
    categorize_broken_link link ∈ [chars "url_encoded", chars "wordpress_specific",
        chars "deep_relative_path", chars "static_asset", chars "wordpress_api",
        chars "rss_feed", chars "other"] ∧
      (encTest link = false → wpTest link = false →
        (categorize_broken_link link = chars "deep_relative_path" ↔
          ((chars "../../").isPrefixOf link = true ∨ 2 < countSub (chars "../") link))) := by
  constructor
  · unfold categorize_broken_link
    repeat' split
    all_goals decide
  · intro he hw
    unfold categorize_broken_link
    simp only [he, hw, Bool.false_eq_true, if_false]
    by_cases hd :
        ((chars "../../").isPrefixOf link || decide (2 < countSub (chars "../") link)) = true
    · rw [if_pos hd]
      rw [Bool.or_eq_true, decide_eq_true_iff] at hd
      exact ⟨fun _ => hd, fun _ => rfl⟩
    · rw [if_neg hd]
      have hd' := hd
      simp only [Bool.or_eq_true, decide_eq_true_iff, not_or, Bool.not_eq_true] at hd'
      obtain ⟨hp, hc⟩ := hd'
      constructor
      · intro hres
        exfalso
        revert hres
        repeat' split
        all_goals decide
      · intro hres
        exfalso
        rcases hres with h | h
        · rw [hp] at h
          exact Bool.false_ne_true h
        · exact absurd h hc

/-- Witness for C5 (amended): the link `abc` triggers neither the
percent-encoding nor the WordPress test and is not categorized
`deep_relative_path`. -/
theorem C5_witness :
    categorize_broken_link (chars "abc") ∈ [chars "url_encoded", chars "wordpress_specific",
        chars "deep_relative_path", chars "static_asset", chars "wordpress_api",
        chars "rss_feed", chars "other"] ∧
      (categorize_broken_link (chars "abc") = chars "deep_relative_path" ↔
        ((chars "../../").isPrefixOf (chars "abc") = true ∨
          2 < countSub (chars "../") (chars "abc"))) :=
  ⟨(C5_amended_categorizer (chars "abc")).1,
    (C5_amended_categorizer (chars "abc")).2 (by decide) (by decide)⟩

/-! ## Claim C10: sanitize_filename invariants -/

theorem mem_replaceChar {x c r : Char} {s : Str} (h : x ∈ replaceChar c r s) :
    x ∈ s ∨ x = r := by
  simp only [replaceChar, List.mem_map] at h
  obtain ⟨a, ha, he⟩ := h
  by_cases hac : a = c
  · subst hac
    simp only [if_pos rfl] at he
    exact Or.inr he.symm
  · simp only [if_neg hac] at he
    exact Or.inl (he ▸ ha)

theorem replaceChar_not_mem_self {c r : Char} (h : c ≠ r) (s : Str) :
    c ∉ replaceChar c r s := by
  intro hmem
  simp only [replaceChar, List.mem_map] at hmem
  obtain ⟨a, _, he⟩ := hmem
  by_cases hac : a = c
  · subst hac
    simp only [if_pos rfl] at he
    exact h he.symm
  · simp only [if_neg hac] at he
    exact hac he

theorem not_mem_replaceChar {x c r : Char} {s : Str} (h1 : x ∉ s) (h2 : x ≠ r) :
    x ∉ replaceChar c r s := fun hm => (mem_replaceChar hm).elim h1 h2

theorem foldl_replace_preserve :
    ∀ (cs : List Char) (s : Str) (x : Char), x ∉ s → x ≠ '_' →
      x ∉ cs.foldl (fun acc c => replaceChar c '_' acc) s := by
  intro cs
  induction cs with
  | nil => intro s x h _ hm; exact h hm
  | cons c cs' ih =>
    intro s x h hx
    exact ih (replaceChar c '_' s) x (not_mem_replaceChar h hx) hx

theorem foldl_replace_removes :
    ∀ (cs : List Char) (s : Str) (x : Char), x ∈ cs → x ≠ '_' →
      x ∉ cs.foldl (fun acc c => replaceChar c '_' acc) s := by
  intro cs
  induction cs with
  | nil => intro s x h; exact absurd h (List.not_mem_nil x)
  | cons c cs' ih =>
    intro s x h hx
    rcases List.mem_cons.mp h with h | h
    · subst h
      exact foldl_replace_preserve cs' (replaceChar x '_' s) x
        (replaceChar_not_mem_self hx s) hx
    · exact ih (replaceChar c '_' s) x h hx

theorem mem_replaceAmp {x : Char} {s : Str} (h : x ∈ replaceAmp s) :
    (x ∈ s ∧ x ≠ '&') ∨ x ∈ chars "_and_" := by
  simp only [replaceAmp, List.mem_flatten, List.mem_map] at h
  obtain ⟨l, ⟨a, ha, he⟩, hx⟩ := h
  subst he
  by_cases hac : a = '&'
  · rw [if_pos hac] at hx
    exact Or.inr hx
  · rw [if_neg hac] at hx
    rcases List.mem_singleton.mp hx with rfl
    exact Or.inl ⟨ha, hac⟩

theorem mem_collapseUnderscores {x : Char} :
    ∀ {s : Str}, x ∈ collapseUnderscores s → x ∈ s := by
  intro s
  induction s with
  | nil => intro h; exact absurd h (List.not_mem_nil x)
  | cons a t ih =>
    intro h
    cases t with
    | nil => exact h
    | cons b rest =>
      by_cases hab : a = '_' ∧ b = '_'
      · rw [collapseUnderscores, if_pos hab] at h
        exact List.mem_cons_of_mem a (ih h)
      · rw [collapseUnderscores, if_neg hab] at h
        rcases List.mem_cons.mp h with h | h
        · exact List.mem_cons.mpr (Or.inl h)
        · exact List.mem_cons_of_mem a (ih h)

theorem head?_collapseUnderscores :
    ∀ (s : Str), (collapseUnderscores s).head? = s.head? := by
  intro s
  induction s with
  | nil => rfl
  | cons a t ih =>
    cases t with
    | nil => rfl
    | cons b rest =>
      by_cases hab : a = '_' ∧ b = '_'
      · rw [collapseUnderscores, if_pos hab, ih]
        simp [hab.1, hab.2]
      · rw [collapseUnderscores, if_neg hab]
        rfl

theorem chain'_collapseUnderscores :
    ∀ (s : Str), (collapseUnderscores s).Chain' (fun a b => ¬ (a = '_' ∧ b = '_')) := by
  intro s
  induction s with
  | nil => exact List.chain'_nil
  | cons a t ih =>
    cases t with
    | nil => exact List.chain'_singleton a
    | cons b rest =>
      by_cases hab : a = '_' ∧ b = '_'
      · rw [collapseUnderscores, if_pos hab]
        exact ih
      · rw [collapseUnderscores, if_neg hab]
        rw [List.chain'_cons']
        refine ⟨?_, ih⟩
        intro y hy
        rw [head?_collapseUnderscores (b :: rest)] at hy
        simp only [List.head?_cons, Option.mem_def, Option.some.injEq] at hy
        subst hy
        exact hab

theorem getLast?_append_right {l₁ l₂ : Str} (h : l₂ ≠ []) :
    (l₁ ++ l₂).getLast? = l₂.getLast? := by
  rw [← List.head?_reverse, List.reverse_append, head?_append_left, List.head?_reverse]
  simpa using h

theorem mem_stripDotSpace {x : Char} {s : Str} (h : x ∈ stripDotSpace s) : x ∈ s := by
  unfold stripDotSpace at h
  rw [List.mem_reverse] at h
  have h2 := (List.dropWhile_sublist (l := (s.dropWhile isDotSpace).reverse) isDotSpace).subset h
  rw [List.mem_reverse] at h2
  exact (List.dropWhile_sublist (l := s) isDotSpace).subset h2

theorem chain'_stripDotSpace {R : Char → Char → Prop} (hsym : ∀ a b, R a b → R b a)
    {s : Str} (h : s.Chain' R) : (stripDotSpace s).Chain' R := by
  have hdw : ∀ (l : Str), l.Chain' R → (l.dropWhile isDotSpace).Chain' R := by
    intro l hl
    obtain ⟨t, ht⟩ := List.dropWhile_suffix (l := l) isDotSpace
    rw [← ht] at hl
    exact (List.chain'_append.mp hl).2.1
  have hrev : ∀ (l : Str), l.Chain' R → l.reverse.Chain' R := by
    intro l hl
    rw [List.chain'_reverse]
    exact hl.imp (fun a b hab => hsym a b hab)
  exact hrev _ (hdw _ (hrev _ (hdw _ h)))

theorem head?_stripDotSpace {s : Str} {a : Char} (h : (stripDotSpace s).head? = some a) :
    isDotSpace a = false := by
  unfold stripDotSpace at h
  rw [List.head?_reverse] at h
  obtain ⟨t, ht⟩ := List.dropWhile_suffix (l := (s.dropWhile isDotSpace).reverse) isDotSpace
  have hd_ne : (s.dropWhile isDotSpace).reverse.dropWhile isDotSpace ≠ [] := by
    intro he
    rw [he] at h
    simp at h
  have hlast : ((s.dropWhile isDotSpace).reverse).getLast? = some a := by
    rw [← ht, getLast?_append_right hd_ne]
    exact h
  rw [List.getLast?_reverse] at hlast
  have hnot := List.head?_dropWhile_not isDotSpace s
  rw [hlast] at hnot
  exact hnot

theorem getLast?_stripDotSpace {s : Str} {a : Char}
    (h : (stripDotSpace s).getLast? = some a) : isDotSpace a = false := by
  unfold stripDotSpace at h
  rw [List.getLast?_reverse] at h
  have hnot := List.head?_dropWhile_not isDotSpace ((s.dropWhile isDotSpace).reverse)
  rw [h] at hnot
  exact hnot

theorem rlast_head {c : Char} :
    ∀ {s : Str} {j : Nat}, rlast c s = some j → (s.drop j).head? = some c := by
  intro s
  induction s with
  | nil => intro j h; simp [rlast] at h
  | cons x t ih =>
    intro j h
    rw [rlast] at h
    cases hr : rlast c t with
    | some j' =>
      rw [hr] at h
      have hj : j = j' + 1 := by injection h with h'; omega
      subst hj
      simpa using ih hr
    | none =>
      rw [hr] at h
      by_cases hx : x = c
      · rw [if_pos hx] at h
        have hj : j = 0 := by injection h with h'; omega
        subst hj
        simp [hx]
      · rw [if_neg hx] at h
        exact absurd h (by simp)

theorem optIdx_ge (o : Option Nat) : -1 ≤ optIdx o := by
  cases o with
  | none => simp [optIdx]
  | some j => simp [optIdx]; omega

theorem splitext_concat (p : Str) : (splitext p).1 ++ (splitext p).2 = p := by
  simp only [splitext]
  split
  · split
    · simp
    · simp
  · simp

theorem splitext_snd_head (p : Str) :
    (splitext p).2 = [] ∨ (splitext p).2.head? = some '.' := by
  simp only [splitext]
  split
  next hlt =>
    split
    next hany =>
      right
      cases hr : rlast '.' p with
      | none =>
        exfalso
        rw [hr] at hlt
        have hn : optIdx none = -1 := rfl
        rw [hn] at hlt
        have h1 := optIdx_ge (rlast '\\' p)
        have h2 : optIdx (rlast '\\' p) ≤
            max (optIdx (rlast '\\' p)) (optIdx (rlast '/' p)) := le_max_left _ _
        omega
      | some j =>
        exact rlast_head hr
    next => exact Or.inl rfl
  next => exact Or.inl rfl

theorem pySliceTo_eq_take (l : Str) (i : Int) : ∃ n, pySliceTo l i = l.take n := by
  unfold pySliceTo
  split
  · exact ⟨_, rfl⟩
  · exact ⟨_, rfl⟩

theorem chain'_take {R : Char → Char → Prop} {l : Str} (h : l.Chain' R) (n : Nat) :
    (l.take n).Chain' R := by
  have ht := List.take_append_drop n l
  rw [← ht] at h
  exact (List.chain'_append.mp h).1

theorem replInvalid_removes {y : Char} (hy : y ∈ invalid_chars) (s : Str) :
    y ∉ replInvalid s :=
  foldl_replace_removes invalid_chars s y hy
    (by intro he; subst he; revert hy; decide)

theorem replEq_preserve {y : Char} {s : Str} (h : y ∉ s) (hy : y ≠ '_') :
    y ∉ replEq s := by
  unfold replEq
  split
  · exact not_mem_replaceChar h hy
  · exact h

theorem replEq_no_eq (s : Str) : '=' ∉ replEq s := by
  unfold replEq
  split
  next hc => exact replaceChar_not_mem_self (by decide) s
  next hc => exact fun hm => hc (List.elem_iff.mpr hm)

theorem replAmpStep_preserve {y : Char} {s : Str} (h : y ∉ s) (hy : y ∉ chars "_and_") :
    y ∉ replAmpStep s := by
  unfold replAmpStep
  split
  · intro hm
    rcases mem_replaceAmp hm with ⟨hmem, _⟩ | hmem
    · exact h hmem
    · exact hy hmem
  · exact h

theorem replAmpStep_no_amp (s : Str) : '&' ∉ replAmpStep s := by
  unfold replAmpStep
  split
  next hc =>
    intro hm
    rcases mem_replaceAmp hm with ⟨_, hne⟩ | hmem
    · exact hne rfl
    · revert hmem; decide
  next hc => exact fun hm => hc (List.elem_iff.mpr hm)

theorem decodeStep_clean {y : Char} {s : Str} (hy : y ∈ invalid_chars ++ ['=', '&'])
    (h : y ∉ s) : y ∉ decodeStep s := by
  unfold decodeStep
  split
  · exact foldl_replace_removes _ _ y hy (by intro he; subst he; revert hy; decide)
  · exact h

/-- After all substitution steps, none of the nine replaced characters
remains in the string. -/
theorem sanitize_pre_clean (f : Str) :
    ∀ x ∈ invalid_chars ++ ['=', '&'], x ∉ sanitize_pre f := by
  intro x hx hmem
  have hx3 : x ∈ invalid_chars ∨ x = '=' ∨ x = '&' := by
    rcases List.mem_append.mp hx with h | h
    · exact Or.inl h
    · rcases List.mem_cons.mp h with h | h
      · exact Or.inr (Or.inl h)
      · exact Or.inr (Or.inr (List.mem_singleton.mp h))
  have hnot : x ∉ replAmpStep (replEq (replInvalid f)) := by
    rcases hx3 with h | h | h
    · have h1 := replInvalid_removes h f
      have hne : x ≠ '_' := by intro he; subst he; revert h; decide
      have hna : x ∉ chars "_and_" := by
        have hinv : ∀ z ∈ invalid_chars, z ∉ chars "_and_" := by decide
        exact hinv x h
      exact replAmpStep_preserve (replEq_preserve h1 hne) hna
    · subst h
      exact replAmpStep_preserve (replEq_no_eq _) (by decide)
    · subst h
      exact replAmpStep_no_amp _
  unfold sanitize_pre at hmem
  exact decodeStep_clean hx hnot (mem_collapseUnderscores (mem_stripDotSpace hmem))

/-- Claim C10 (amended): the sanitised name never contains any of the nine
replaced characters and never contains two consecutive underscores; and
whenever the string before the 200-character cap is at most 200 characters
long (so the cap does not fire), it also has no leading or trailing `.` or
space.  (The cap itself can cut the name right after a `.` or space, which
is what the counterexample exhibits.) -/
theorem C10_amended_sanitize (f : Str) :
    (∀ x ∈ sanitize_filename f, x ∉ invalid_chars ++ ['=', '&']) ∧
      (sanitize_filename f).Chain' (fun a b => ¬ (a = '_' ∧ b = '_')) ∧
      ((sanitize_pre f).length ≤ 200 →
        (∀ a, (sanitize_filename f).head? = some a → a ≠ '.' ∧ a ≠ ' ') ∧
        (∀ a, (sanitize_filename f).getLast? = some a → a ≠ '.' ∧ a ≠ ' ')) := by
  have hclean := sanitize_pre_clean f
  have hchain : (sanitize_pre f).Chain' (fun a b => ¬ (a = '_' ∧ b = '_')) := by
    unfold sanitize_pre
    exact chain'_stripDotSpace (fun a b hab h => hab ⟨h.2, h.1⟩)
      (chain'_collapseUnderscores _)
  have hcat := splitext_concat (sanitize_pre f)
  by_cases hcap : 200 < (sanitize_pre f).length
  · rcases hsp : splitext (sanitize_pre f) with ⟨nm, ex⟩
    have hcat2 : nm ++ ex = sanitize_pre f := by
      have h := hcat
      rw [hsp] at h
      exact h
    have hsnd : ex = [] ∨ ex.head? = some '.' := by
      have h := splitext_snd_head (sanitize_pre f)
      rw [hsp] at h
      exact h
    have hsf : sanitize_filename f = pySliceTo nm (200 - (ex.length : Int)) ++ ex := by
      unfold sanitize_filename
      rw [if_pos hcap, hsp]
    rw [hsf]
    obtain ⟨n, hn⟩ := pySliceTo_eq_take nm (200 - (ex.length : Int))
    rw [hn]
    rw [← hcat2] at hchain
    have hclean2 : ∀ x ∈ invalid_chars ++ ['=', '&'], x ∉ nm ++ ex := by
      rw [hcat2]
      exact hclean
    have hparts := List.chain'_append.mp hchain
    refine ⟨?_, ?_, ?_⟩
    · intro x hx hbad
      rcases List.mem_append.mp hx with hx | hx
      · exact hclean2 x hbad (List.mem_append.mpr (Or.inl (List.take_subset n _ hx)))
      · exact hclean2 x hbad (List.mem_append.mpr (Or.inr hx))
    · apply List.chain'_append.mpr
      refine ⟨chain'_take hparts.1 n, hparts.2.1, ?_⟩
      intro x hx y hy
      rcases hsnd with he | he
      · subst he
        simp at hy
      · rw [he] at hy
        simp only [Option.mem_def, Option.some.injEq] at hy
        subst hy
        intro hcon
        exact absurd hcon.2 (by decide)
    · intro hle
      exact absurd hcap (by omega)
  · have hsf : sanitize_filename f = sanitize_pre f := by
      unfold sanitize_filename
      rw [if_neg hcap]
    rw [hsf]
    refine ⟨?_, hchain, ?_⟩
    · intro x hx hbad
      exact hclean x hbad hx
    · intro hle
      constructor
      · intro a ha
        have hd : isDotSpace a = false := by
          unfold sanitize_pre at ha
          exact head?_stripDotSpace ha
        simpa [isDotSpace] using hd
      · intro a ha
        have hd : isDotSpace a = false := by
          unfold sanitize_pre at ha
          exact getLast?_stripDotSpace ha
        simpa [isDotSpace] using hd

set_option maxRecDepth 10000 in
set_option maxHeartbeats 2000000 in
/-- Claim C10, counterexample: on the 203-character input
`'a' * 199 ++ "./zz"` the length cap truncates to 200 characters and the
result ends in `.`, violating the no-trailing-dot clause. -/
theorem C10_cex_trailing_dot :
    (sanitize_filename (List.replicate 199 'a' ++ chars "./zz")).getLast? = some '.' := by
  decide

/-- Witness for C10 (amended): `a?.html` stays under the cap and the
guarantees apply to it. -/
theorem C10_witness :
    (∀ x ∈ sanitize_filename (chars "a?.html"), x ∉ invalid_chars ++ ['=', '&']) ∧
      ((sanitize_pre (chars "a?.html")).length ≤ 200 ∧
        ∀ a, (sanitize_filename (chars "a?.html")).getLast? = some a →
          a ≠ '.' ∧ a ≠ ' ') :=
  ⟨(C10_amended_sanitize (chars "a?.html")).1,
    by decide,
    fun a ha => ((C10_amended_sanitize (chars "a?.html")).2.2 (by decide)).2 a ha⟩

/-! ## Claim C9: injectivity of the rename mapping -/

theorem dchar_inj :
    ∀ a < 10, ∀ b < 10, Char.ofNat (48 + a) = Char.ofNat (48 + b) → a = b := by
  decide

theorem map_dchar_inj :
    ∀ (l1 l2 : List Nat), (∀ x ∈ l1, x < 10) → (∀ x ∈ l2, x < 10) →
      l1.map (fun d => Char.ofNat (48 + d)) = l2.map (fun d => Char.ofNat (48 + d)) →
      l1 = l2 := by
  intro l1
  induction l1 with
  | nil =>
    intro l2 _ _ h
    cases l2 with
    | nil => rfl
    | cons b t => simp at h
  | cons a t ih =>
    intro l2 h1 h2 h
    cases l2 with
    | nil => simp at h
    | cons b t2 =>
      simp only [List.map_cons, List.cons.injEq] at h
      have ha := h1 a (List.mem_cons_self a t)
      have hb := h2 b (List.mem_cons_self b t2)
      have hab := dchar_inj a ha b hb h.1
      subst hab
      rw [ih t2 (fun x hx => h1 x (List.mem_cons_of_mem a hx))
        (fun x hx => h2 x (List.mem_cons_of_mem a hx)) h.2]

theorem natStr_inj {m n : Nat} (hm : 1 ≤ m) (hn : 1 ≤ n) (h : natStr m = natStr n) :
    m = n := by
  unfold natStr at h
  rw [if_neg (by omega), if_neg (by omega)] at h
  have h2 := List.reverse_injective h
  have h3 := map_dchar_inj _ _
    (fun x hx => Nat.digits_lt_base (by norm_num) hx)
    (fun x hx => Nat.digits_lt_base (by norm_num) hx) h2
  have h4 := congrArg (Nat.ofDigits 10) h3
  rwa [Nat.ofDigits_digits, Nat.ofDigits_digits] at h4
  
theorem conflictCand_inj (base : Str) {j k : Nat} (hj : 1 ≤ j) (hk : 1 ≤ k)
    (h : conflictCand base j = conflictCand base k) : j = k := by
  unfold conflictCand at h
  simp only [List.append_cancel_left_eq, List.cons.injEq, eq_self_iff_true, true_and,
    List.append_cancel_right_eq] at h
  exact natStr_inj hj hk h

theorem exists_fresh_cand (base : Str) (values : List Str) :
    ∃ j, 1 ≤ j ∧ j < values.length + 2 ∧ conflictCand base j ∉ values := by
  by_contra hcon
  push_neg at hcon
  have hmaps : ∀ i ∈ Finset.range (values.length + 1),
      (fun i : Nat => conflictCand base (i + 1)) i ∈ values.toFinset := by
    intro i hi
    rw [List.mem_toFinset]
    rw [Finset.mem_range] at hi
    exact hcon (i + 1) (by omega) (by omega)
  have hinj : Set.InjOn (fun i : Nat => conflictCand base (i + 1))
      (Finset.range (values.length + 1)) := by
    intro a _ b _ hab
    have := conflictCand_inj base (j := a + 1) (k := b + 1) (by omega) (by omega) hab
    omega
  have hcard := Finset.card_le_card_of_injOn _ hmaps hinj
  rw [Finset.card_range] at hcard
  have hle := List.toFinset_card_le (l := values)
  omega

theorem freshLoop_not_mem (base : Str) (values : List Str) :
    ∀ (fuel k : Nat), (∃ j, k ≤ j ∧ j < k + fuel ∧ conflictCand base j ∉ values) →
      freshLoop base values k fuel ∉ values := by
  intro fuel
  induction fuel with
  | zero =>
    intro k h
    obtain ⟨j, h1, h2, _⟩ := h
    exact absurd h2 (by omega)
  | succ fuel ih =>
    intro k h
    obtain ⟨j, h1, h2, h3⟩ := h
    simp only [freshLoop]
    split
    next hmem =>
      apply ih (k + 1)
      refine ⟨j, ?_, by omega, h3⟩
      rcases Nat.eq_or_lt_of_le h1 with rfl | hlt
      · exact absurd hmem h3
      · omega
    next hmem => exact hmem

theorem resolveRename_not_mem (base : Str) (values : List Str) :
    resolveRename base values ∉ values := by
  unfold resolveRename
  split
  next hmem =>
    apply freshLoop_not_mem
    obtain ⟨j, h1, h2, h3⟩ := exists_fresh_cand base values
    exact ⟨j, h1, by omega, h3⟩
  next hmem => exact hmem

theorem replace_pairwise (m : List (Str × Str)) (key v : Str)
    (hm : m.Pairwise (fun p q => p.1 ≠ q.1 ∧ p.2 ≠ q.2)) (hv : v ∉ m.map (·.2)) :
    (m.map (fun p => if p.1 = key then (key, v) else p)).Pairwise
      (fun p q => p.1 ≠ q.1 ∧ p.2 ≠ q.2) := by
  induction m with
  | nil => simp
  | cons p rest ih =>
    rw [List.map_cons]
    rw [List.pairwise_cons] at hm
    obtain ⟨hp, hrest⟩ := hm
    have hv' : v ∉ rest.map (·.2) := by
      intro hmem
      exact hv (by rw [List.map_cons]; exact List.mem_cons_of_mem _ hmem)
    rw [List.pairwise_cons]
    refine ⟨?_, ih hrest hv'⟩
    intro q' hq'
    rw [List.mem_map] at hq'
    obtain ⟨q, hq, rfl⟩ := hq'
    by_cases hpk : p.1 = key
    · rw [if_pos hpk]
      by_cases hqk : q.1 = key
      · exact absurd (hpk.trans hqk.symm) (hp q hq).1
      · rw [if_neg hqk]
        constructor
        · intro he
          exact hqk he.symm
        · intro he
          have he' : v = q.2 := he
          exact hv (by
            rw [he']
            rw [List.map_cons]
            exact List.mem_cons_of_mem _ (List.mem_map.mpr ⟨q, hq, rfl⟩))
    · rw [if_neg hpk]
      by_cases hqk : q.1 = key
      · rw [if_pos hqk]
        constructor
        · intro he
          exact hpk he
        · intro he
          have he' : p.2 = v := he
          exact hv (by
            rw [← he']
            rw [List.map_cons]
            exact List.mem_cons_self _ _)
      · rw [if_neg hqk]
        exact hp q hq

theorem insertEntry_pairwise {m : List (Str × Str)} {key v : Str}
    (hm : m.Pairwise (fun p q => p.1 ≠ q.1 ∧ p.2 ≠ q.2)) (hv : v ∉ m.map (·.2)) :
    (insertEntry m key v).Pairwise (fun p q => p.1 ≠ q.1 ∧ p.2 ≠ q.2) := by
  unfold insertEntry
  split
  next hkey => exact replace_pairwise m key v hm hv
  next hkey =>
    rw [List.pairwise_append]
    refine ⟨hm, ?_, ?_⟩
    · simp
    · intro p hp q hq
      rw [List.mem_singleton] at hq
      subst hq
      constructor
      · intro he
        apply hkey
        rw [List.any_eq_true]
        exact ⟨p, hp, by simp [he]⟩
      · intro he
        have he' : p.2 = v := he
        exact hv (he' ▸ List.mem_map.mpr ⟨p, hp, rfl⟩)

theorem create_rename_mapping_pairwise (files : List Str) :
    (create_rename_mapping files).Pairwise (fun p q => p.1 ≠ q.1 ∧ p.2 ≠ q.2) := by
  unfold create_rename_mapping
  suffices h : ∀ (fs : List Str) (m : List (Str × Str)),
      m.Pairwise (fun p q => p.1 ≠ q.1 ∧ p.2 ≠ q.2) →
      (fs.foldl
        (fun m orig => insertEntry m orig (resolveRename (sanitizePath orig) (m.map (·.2))))
        m).Pairwise (fun p q => p.1 ≠ q.1 ∧ p.2 ≠ q.2) by
    exact h files [] (by simp)
  intro fs
  induction fs with
  | nil => intro m hm; exact hm
  | cons g fs ih =>
    intro m hm
    rw [List.foldl_cons]
    exact ih _ (insertEntry_pairwise hm (resolveRename_not_mem _ _))

/-- Claim C9: `create_rename_mapping` is injective — no two distinct
original paths receive the same sanitized path, the conflict loop appending
`_1`, `_2`, … until the candidate is absent from the mapped values. -/
theorem C9_rename_mapping_injective (files : List Str) (a va b vb : Str)
    (h1 : (a, va) ∈ create_rename_mapping files)
    (h2 : (b, vb) ∈ create_rename_mapping files)
    (hne : a ≠ b) : va ≠ vb := by
  have hpw := create_rename_mapping_pairwise files
  have hsym : Symmetric (fun p q : Str × Str => p.1 ≠ q.1 ∧ p.2 ≠ q.2) :=
    fun p q h => ⟨Ne.symm h.1, Ne.symm h.2⟩
  have hne2 : (a, va) ≠ (b, vb) := fun h => hne (congrArg Prod.fst h)
  exact (List.Pairwise.forall hsym hpw h1 h2 hne2).2

/-- Witness for C9: the files `a?` and `b?` are mapped to the distinct
sanitized names `a_` and `b_`. -/
theorem C9_witness :
    (chars "a?", chars "a_") ∈ create_rename_mapping [chars "a?", chars "b?"] ∧
      (chars "b?", chars "b_") ∈ create_rename_mapping [chars "a?", chars "b?"] ∧
      chars "a_" ≠ chars "b_" :=
  ⟨by decide, by decide,
    C9_rename_mapping_injective [chars "a?", chars "b?"] (chars "a?") (chars "a_")
      (chars "b?") (chars "b_") (by decide) (by decide) (by decide)⟩

/-! ## Claim C1: resolver output shape -/

theorem splitChar_ne_nil (c : Char) : ∀ (s : Str), splitChar c s ≠ [] := by
  intro s
  cases s with
  | nil => simp [splitChar]
  | cons x rest =>
    rw [splitChar]
    split <;> split <;> simp

theorem splitChar_cons_eq (c x : Char) (rest : Str) (p : Str) (ps : List Str)
    (h : splitChar c rest = p :: ps) :
    splitChar c (x :: rest) = if x = c then [] :: p :: ps else (x :: p) :: ps := by
  rw [splitChar, h]

theorem splitChar_cons_decomp (c : Char) (s : Str) : ∃ p ps, splitChar c s = p :: ps := by
  cases h : splitChar c s with
  | nil => exact absurd h (splitChar_ne_nil c s)
  | cons p ps => exact ⟨p, ps, rfl⟩

theorem splitChar_append_cons (c : Char) :
    ∀ (l₁ l₂ : Str), splitChar c (l₁ ++ c :: l₂) = splitChar c l₁ ++ splitChar c l₂ := by
  intro l₁ l₂
  induction l₁ with
  | nil =>
    obtain ⟨p, ps, h⟩ := splitChar_cons_decomp c l₂
    rw [List.nil_append, splitChar_cons_eq c c l₂ p ps h, if_pos rfl,
      show splitChar c ([] : Str) = [[]] from rfl, h]
    rfl
  | cons x l₁ ih =>
    obtain ⟨p, ps, h1⟩ := splitChar_cons_decomp c l₁
    have hinner : splitChar c (l₁ ++ c :: l₂) = p :: (ps ++ splitChar c l₂) := by
      rw [ih, h1]
      rfl
    rw [List.cons_append, splitChar_cons_eq c x _ _ _ hinner,
      splitChar_cons_eq c x l₁ p ps h1]
    by_cases hx : x = c
    · rw [if_pos hx, if_pos hx]
      rfl
    · rw [if_neg hx, if_neg hx]
      rfl

theorem mem_splitChar_no_sep (c : Char) :
    ∀ (s : Str) (piece : Str), piece ∈ splitChar c s → c ∉ piece := by
  intro s
  induction s with
  | nil =>
    intro piece hp
    rw [splitChar, List.mem_singleton] at hp
    subst hp
    exact List.not_mem_nil c
  | cons x rest ih =>
    intro piece hp
    obtain ⟨p, ps, h⟩ := splitChar_cons_decomp c rest
    rw [splitChar_cons_eq c x rest p ps h] at hp
    by_cases hx : x = c
    · rw [if_pos hx] at hp
      rcases List.mem_cons.mp hp with rfl | hp
      · exact List.not_mem_nil c
      · exact ih piece (by rw [h]; exact hp)
    · rw [if_neg hx] at hp
      rcases List.mem_cons.mp hp with rfl | hp
      · intro hm
        rcases List.mem_cons.mp hm with hm | hm
        · exact hx hm.symm
        · exact ih p (by rw [h]; exact List.mem_cons_self p ps) hm
      · exact ih piece (by rw [h]; exact List.mem_cons_of_mem p hp)

theorem splitChar_no_sep (c : Char) :
    ∀ (s : Str), c ∉ s → splitChar c s = [s] := by
  intro s
  induction s with
  | nil => intro _; rfl
  | cons x rest ih =>
    intro hm
    have hx : x ≠ c := fun he => hm (he ▸ List.mem_cons_self x rest)
    have hrest : c ∉ rest := fun hc => hm (List.mem_cons_of_mem x hc)
    rw [splitChar_cons_eq c x rest rest [] (ih hrest), if_neg hx]

theorem pathName_append_slash_index (p : Str) :
    pathName (p ++ chars "/index.html") = chars "index.html" := by
  have hsplit : splitChar '/' (p ++ chars "/index.html") =
      splitChar '/' p ++ [chars "index.html"] := by
    have h1 : p ++ chars "/index.html" = p ++ '/' :: chars "index.html" := rfl
    rw [h1, splitChar_append_cons, splitChar_no_sep '/' (chars "index.html") (by decide)]
  unfold pathName parseParts
  rw [hsplit, List.filter_append]
  have hkeep : List.filter (fun seg => decide (seg ≠ [] ∧ seg ≠ chars "."))
      [chars "index.html"] = [chars "index.html"] := by decide
  rw [hkeep, List.getLast?_concat]
  rfl

theorem indexSuffix_dot (path : Str) : '.' ∈ pathName (indexSuffix path) := by
  unfold indexSuffix
  split
  next hd => exact hd
  next hd =>
    rw [pathName_append_slash_index]
    decide

theorem finishPath_name_dot (p : Str) : '.' ∈ pathName (finishPath p) := by
  unfold finishPath
  split
  · decide
  · split
    · exact indexSuffix_dot _
    · exact indexSuffix_dot _

theorem indexSuffix_head (path : Str) (h : path ≠ []) :
    (indexSuffix path).head? = path.head? := by
  unfold indexSuffix
  split
  · rfl
  · exact head?_append_left h

theorem finishPath_no_lead (p : Str) (h : (stripBlogSlash p).head? ≠ some '/') :
    (finishPath p).head? ≠ some '/' := by
  unfold finishPath
  split
  · decide
  next hne =>
    have hq : stripBlogSlash p ≠ [] := fun he => hne (Or.inl he)
    split
    · rw [indexSuffix_head _ (fun he => hq (List.append_eq_nil.mp he).1),
        head?_append_left hq]
      exact h
    · rw [indexSuffix_head _ hq]
      exact h

theorem stripBlogSlash_head (p : Str)
    (hnn : (chars "//").isPrefixOf p = false)
    (hnb : (chars "/blog//").isPrefixOf p = false) :
    (stripBlogSlash p).head? ≠ some '/' := by
  unfold stripBlogSlash
  split
  next hb =>
    intro hh
    obtain ⟨t, rfl⟩ := (prefixOf_iff _ _).mp hb
    rw [show (6 : Nat) = (chars "/blog/").length from rfl, List.drop_left] at hh
    cases t with
    | nil => simp at hh
    | cons a t' =>
      simp only [List.head?_cons, Option.some.injEq] at hh
      subst hh
      have hp : (chars "/blog//").isPrefixOf (chars "/blog/" ++ '/' :: t') = true := by
        rw [prefixOf_iff]
        exact ⟨t', by simp [chars]⟩
      rw [hp] at hnb
      simp at hnb
  next hb =>
    split
    next hs =>
      intro hh
      cases p with
      | nil => simp at hs
      | cons a t =>
        simp only [List.head?_cons, Option.some.injEq] at hs
        subst hs
        have hh2 : t.head? = some '/' := hh
        cases t with
        | nil => simp at hh2
        | cons b t' =>
          simp only [List.head?_cons, Option.some.injEq] at hh2
          subst hh2
          have hp : (chars "//").isPrefixOf ('/' :: '/' :: t') = true := by
            rw [prefixOf_iff]
            exact ⟨t', by simp [chars]⟩
          rw [hp] at hnn
          simp at hnn
    next hs => exact hs

theorem joinSlash_head (s : Str) (rest : List Str) (h : s ≠ []) :
    (joinSlash (s :: rest)).head? = s.head? := by
  cases rest with
  | nil => rfl
  | cons t r =>
    show (s ++ '/' :: joinSlash (t :: r)).head? = s.head?
    exact head?_append_left h

theorem firstSlashAlign :
    ∀ (a b u t : Str), '/' ∉ a → '/' ∉ b → a ++ '/' :: u = b ++ '/' :: t →
      a = b ∧ u = t := by
  intro a
  induction a with
  | nil =>
    intro b u t _ hb h
    cases b with
    | nil =>
      rw [List.nil_append, List.nil_append] at h
      injection h with _ h2
      exact ⟨rfl, h2⟩
    | cons y b' =>
      rw [List.nil_append, List.cons_append] at h
      have hy : y = '/' := by injection h with h1 _; exact h1.symm
      subst hy
      exact absurd (List.mem_cons_self _ _) hb
  | cons x a' ih =>
    intro b u t ha hb h
    cases b with
    | nil =>
      rw [List.cons_append, List.nil_append] at h
      have hx : x = '/' := by
        have h0 := congrArg List.head? h
        simpa using h0
      subst hx
      exact absurd (List.mem_cons_self _ _) ha
    | cons y b' =>
      rw [List.cons_append, List.cons_append] at h
      injection h with h1 h2
      subst h1
      have ha' : '/' ∉ a' := fun hm => ha (List.mem_cons_of_mem x hm)
      have hb' : '/' ∉ b' := fun hm => hb (List.mem_cons_of_mem x hm)
      obtain ⟨he, hu⟩ := ih b' u t ha' hb' h2
      exact ⟨by rw [he], hu⟩

theorem resolveSegs_mem_aux :
    ∀ (l acc : List Str) (x : Str),
      x ∈ l.foldl (fun acc s =>
        if s = chars ".." then acc.dropLast
        else if s = chars "." ∨ s = [] then acc
        else acc ++ [s]) acc →
      x ∈ acc ∨ (x ∈ l ∧ x ≠ []) := by
  intro l
  induction l with
  | nil => intro acc x h; exact Or.inl h
  | cons s l ih =>
    intro acc x h
    rw [List.foldl_cons] at h
    rcases ih _ x h with h2 | h2
    · by_cases h1 : s = chars ".."
      · rw [if_pos h1] at h2
        exact Or.inl (List.dropLast_subset acc h2)
      · rw [if_neg h1] at h2
        by_cases h3 : s = chars "." ∨ s = []
        · rw [if_pos h3] at h2
          exact Or.inl h2
        · rw [if_neg h3] at h2
          rcases List.mem_append.mp h2 with h4 | h4
          · exact Or.inl h4
          · rcases List.mem_singleton.mp h4 with rfl
            exact Or.inr ⟨List.mem_cons_self _ _, fun he => h3 (Or.inr he)⟩
    · exact Or.inr ⟨List.mem_cons_of_mem s h2.1, h2.2⟩

theorem resolveSegs_mem (l : List Str) (x : Str) (h : x ∈ resolveSegs l) :
    x ∈ l ∧ x ≠ [] := by
  unfold resolveSegs at h
  rcases resolveSegs_mem_aux l [] x h with h2 | h2
  · exact absurd h2 (List.not_mem_nil x)
  · exact h2

theorem relSegs_facts (path : Str) (currentRel rootSegs : List Str)
    (hclean : ∀ seg ∈ rootSegs ++ currentRel, ('/' : Char) ∉ seg) :
    ∀ x ∈ relSegs path currentRel rootSegs, x ≠ [] ∧ ('/' : Char) ∉ x := by
  intro x hx
  unfold relSegs resolvedAbs at hx
  have hx1 := List.drop_subset rootSegs.length _ hx
  obtain ⟨hmem, hne⟩ := resolveSegs_mem _ x hx1
  refine ⟨hne, ?_⟩
  rcases List.mem_append.mp hmem with h | h
  · exact hclean x (List.dropLast_subset _ h)
  · exact mem_splitChar_no_sep '/' path x (List.mem_of_mem_filter h)

theorem joined_head (rel : List Str)
    (hseg : ∀ seg ∈ rel, seg ≠ [] ∧ ('/' : Char) ∉ seg) :
    (if rel = [] then chars "." else joinSlash rel).head? ≠ some '/' := by
  split
  · decide
  next hne =>
    cases rel with
    | nil => exact absurd rfl hne
    | cons s rest =>
      obtain ⟨hs1, hs2⟩ := hseg s (List.mem_cons_self s rest)
      rw [joinSlash_head s rest hs1]
      intro hh
      cases s with
      | nil => exact hs1 rfl
      | cons a t =>
        simp only [List.head?_cons, Option.some.injEq] at hh
        subst hh
        exact hs2 (List.mem_cons_self _ _)

theorem relative_no_double (rel : List Str)
    (hseg : ∀ seg ∈ rel, seg ≠ [] ∧ ('/' : Char) ∉ seg) :
    (chars "//").isPrefixOf
      ('/' :: (if rel = [] then chars "." else joinSlash rel)) = false := by
  by_contra hc
  rw [Bool.not_eq_false, prefixOf_iff] at hc
  obtain ⟨u, hu⟩ := hc
  have h2 : (if rel = [] then chars "." else joinSlash rel) = '/' :: u := by
    have he : chars "//" ++ u = '/' :: '/' :: u := rfl
    rw [he] at hu
    simpa using congrArg List.tail hu
  have h3 := joined_head rel hseg
  rw [h2] at h3
  exact h3 rfl

theorem relative_no_blog_double (rel : List Str)
    (hseg : ∀ seg ∈ rel, seg ≠ [] ∧ ('/' : Char) ∉ seg) :
    (chars "/blog//").isPrefixOf
      ('/' :: (if rel = [] then chars "." else joinSlash rel)) = false := by
  by_contra hc
  rw [Bool.not_eq_false, prefixOf_iff] at hc
  obtain ⟨u, hu⟩ := hc
  have hu2 : (if rel = [] then chars "." else joinSlash rel) =
      chars "blog" ++ '/' :: '/' :: u := by
    have he : chars "/blog//" ++ u = '/' :: (chars "blog" ++ '/' :: '/' :: u) := by
      simp [chars]
    rw [he] at hu
    simpa using congrArg List.tail hu
  revert hu2
  split
  next hr =>
    intro hu2
    simp [chars] at hu2
  next hr =>
    intro hu2
    cases rel with
    | nil => exact absurd rfl hr
    | cons s rest =>
      obtain ⟨hs1, hs2⟩ := hseg s (List.mem_cons_self s rest)
      cases rest with
      | nil =>
        rw [show joinSlash [s] = s from rfl] at hu2
        apply hs2
        rw [hu2]
        exact List.mem_append.mpr (Or.inr (List.mem_cons_self '/' _))
      | cons t r =>
        rw [show joinSlash (s :: t :: r) = s ++ '/' :: joinSlash (t :: r) from rfl] at hu2
        obtain ⟨heq, hj⟩ := firstSlashAlign (chars "blog") s ('/' :: u) (joinSlash (t :: r))
          (by decide) hs2 hu2.symm
        obtain ⟨ht1, ht2⟩ := hseg t (List.mem_cons_of_mem s (List.mem_cons_self t r))
        have hhead : (joinSlash (t :: r)).head? = t.head? := joinSlash_head t r ht1
        rw [← hj] at hhead
        cases t with
        | nil => exact ht1 rfl
        | cons b t' =>
          simp only [List.head?_cons, Option.some.injEq] at hhead
          subst hhead
          exact ht2 (List.mem_cons_self _ _)

/-- Claim C1 (amended): whenever path resolution succeeds, the returned
path's final component always contains a `.` (directory-style links get
`index.html`, asset links keep their own extension — the result need not
end in `.html`); and, provided the site-root and containing-file segments
are slash-free (as pathlib guarantees), the result begins with a path
separator only if the link's stripped path component begins with `//` or
`/blog//`. -/
theorem C1_amended_resolver (url : Str) (currentRel rootSegs : List Str) (s : Str)
    (h : normalize_path url currentRel rootSegs = some s) :
    ('.' ∈ pathName s) ∧
      ((∀ seg ∈ rootSegs ++ currentRel, ('/' : Char) ∉ seg) →
        (chars "//").isPrefixOf (preStripped url) = false →
        (chars "/blog//").isPrefixOf (preStripped url) = false →
        s.head? ≠ some '/') := by
  unfold normalize_path at h
  split at h
  next habs =>
    have hs : s = finishPath (preStripped url) := by
      injection h with h2
      exact h2.symm
    subst hs
    refine ⟨finishPath_name_dot _, ?_⟩
    intro _ hnn hnb
    exact finishPath_no_lead _ (stripBlogSlash_head _ hnn hnb)
  next habs =>
    cases hr : relativize (preStripped url) currentRel rootSegs with
    | none =>
      rw [hr] at h
      exact absurd h (by simp)
    | some p' =>
      rw [hr] at h
      have hs : s = finishPath p' := by
        injection h with h2
        exact h2.symm
      subst hs
      refine ⟨finishPath_name_dot _, ?_⟩
      intro hclean _ _
      unfold relativize at hr
      split at hr
      next hpref =>
        have hp' : p' = '/' :: (if relSegs (preStripped url) currentRel rootSegs = []
            then chars "." else joinSlash (relSegs (preStripped url) currentRel rootSegs)) := by
          injection hr with h2
          exact h2.symm
        subst hp'
        have hseg := relSegs_facts (preStripped url) currentRel rootSegs hclean
        apply finishPath_no_lead
        apply stripBlogSlash_head
        · exact relative_no_double _ hseg
        · exact relative_no_blog_double _ hseg
      next hpref => exact absurd hr (by simp)

/-- Witness for C1 (amended): the link `/blog/style.css` from
`root/page.html` resolves to `style.css`, whose name contains a `.` and
which has no leading separator. -/
theorem C1_witness :
    ('.' ∈ pathName (chars "style.css")) ∧
      (chars "style.css").head? ≠ some '/' :=
  have h := C1_amended_resolver (chars "/blog/style.css") [chars "page.html"]
    [chars "d", chars "r"] (chars "style.css") (by decide)
  ⟨h.1, h.2 (by decide) (by decide) (by decide)⟩
